import Mathlib

/-!
# rssd: feed synchronisation, command template expansion and the configuration store

A shallow embedding of `main.go`.

* A Go string is a byte sequence; the strings of the program are taken to be valid
  UTF-8 and are modelled as lists of characters (`Str`).  The scans of
  `strings.ReplaceAll` for the (ASCII) keys and of `os.ExpandEnv` work on bytes; on
  valid UTF-8 they find the same occurrences as the scans over characters below.
* File contents are lists of bytes (`Bytes`, each byte a natural number).
* The standard library functions `strings.ReplaceAll` and `os.ExpandEnv` are modelled
  after their Go sources.  `encoding/json`, the feed library, the shell and the
  process environment are parameters (`Json`, `World`); of the feed library's types
  the fields the program reads are declared, the author of an item being a pointer
  that may be nil.
-/

set_option maxRecDepth 100000

namespace Rssd

/-- Go `string`, as the list of its characters. -/
abbrev Str := List Char
/-- File contents: a list of bytes. -/
abbrev Bytes := List Nat

/-! ## strings.ReplaceAll -/

/-- Go `strings.HasPrefix s p`, with the prefix as first argument. -/
def hasPrefix : Str → Str → Bool
  | [], _ => true
  | _ :: _, [] => false
  | p :: ps, c :: cs => decide (p = c) && hasPrefix ps cs

/-- The scanning loop of `strings.Replace` for a non-empty `old`: the first argument
counts the characters of a matched occurrence still to be skipped. -/
def replaceGo (old new : Str) : Nat → Str → Str
  | _, [] => []
  | k + 1, _ :: s => replaceGo old new k s
  | 0, c :: s =>
    if hasPrefix old (c :: s) then new ++ replaceGo old new (old.length - 1) s
    else c :: replaceGo old new 0 s

/-- Go `strings.ReplaceAll s old new`: every non-overlapping occurrence of `old`,
leftmost first, is replaced by `new`; an empty `old` matches before every
character and at the end. -/
def ReplaceAll (s old new : Str) : Str :=
  if old = new then s
  else if old = [] then new ++ s.flatMap (fun c => c :: new)
  else replaceGo old new 0 s

/-! ## os.ExpandEnv -/

/-- Go `os.isShellSpecialVar`. -/
def isShellSpecialVar (c : Char) : Bool :=
  c ∈ ['*', '#', '$', '@', '!', '?', '-', '0', '1', '2', '3', '4', '5', '6', '7', '8', '9']

/-- Go `os.isAlphaNum`. -/
def isAlphaNum (c : Char) : Bool :=
  c = '_' || ('0' ≤ c && c ≤ '9') || ('a' ≤ c && c ≤ 'z') || ('A' ≤ c && c ≤ 'Z')

/-- The brace scan of `os.getShellName`: `s` is the text after `{`, `i` the index
in the whole argument of the first character of `s`, `acc` the characters read. -/
def scanBrace : Str → Nat → Str → Str × Nat
  | [], _, _ => ([], 1)
  | c :: s, i, acc =>
    if c = '}' then (if i = 1 then ([], 2) else (acc.reverse, i + 1))
    else scanBrace s (i + 1) (c :: acc)

/-- Go `os.getShellName`: the variable name that starts the (non-empty) argument
and the number of characters it takes. -/
def getShellName : Str → Str × Nat
  | [] => ([], 0)
  | c :: s =>
    if c = '{' then
      match s with
      | c1 :: c2 :: _ =>
        if isShellSpecialVar c1 && decide (c2 = '}') then ([c1], 3) else scanBrace s 1 []
      | _ => scanBrace s 1 []
    else if isShellSpecialVar c then ([c], 1)
    else ((c :: s).takeWhile isAlphaNum, ((c :: s).takeWhile isAlphaNum).length)

/-- The loop of Go `os.Expand`; the first argument counts the characters of a
reference still to be skipped. -/
def expandGo (mapping : Str → Str) : Nat → Str → Str
  | _, [] => []
  | k + 1, _ :: s => expandGo mapping k s
  | 0, c :: s =>
    if c = '$' ∧ s ≠ [] then
      let nw := getShellName s
      (if nw.1 = [] ∧ 0 < nw.2 then []
       else if nw.1 = [] then ['$']
       else mapping nw.1) ++ expandGo mapping nw.2 s
    else c :: expandGo mapping 0 s

/-- Go `os.ExpandEnv s`, the environment given as `getenv`. -/
def ExpandEnv (getenv : Str → Str) (s : Str) : Str := expandGo getenv 0 s

/-! ## Feed documents -/

/-- Modelled from the spec: the author of an entry (`gofeed.Person` of the feed
library, whose declaration is not part of the sources), with the two fields the
program reads. -/
structure Person where
  Name : Str
  Email : Str
deriving DecidableEq, Repr

/-- Modelled from the spec: the entry type (`gofeed.Item` of the feed library, whose
declaration is not part of the sources), with the fields the program reads.  The
program reads the author through `Author`, a pointer in the library: it is `none`
(nil) for an entry without author. -/
structure Item where
  Title : Str
  Link : Str
  Published : Str
  Description : Str
  Author : Option Person
deriving DecidableEq, Repr

/-- Modelled from the spec: the document type (`gofeed.Feed` of the feed library,
whose declaration is not part of the sources), with the fields the program reads;
`Items` may be empty. -/
structure Feed where
  Title : Str
  Description : Str
  Language : Str
  Items : List Item
deriving DecidableEq, Repr

/-- The nine keys of the map literal in `synchronize`. -/
inductive Tok
  | title | desc | lang | item_title | item_link | item_pubDate | item_desc
  | item_authorName | item_authorEmail
deriving DecidableEq, Repr

/-- The key text of a map entry. -/
def Tok.text : Tok → Str
  | .title => "&title".toList
  | .desc => "&desc".toList
  | .lang => "&lang".toList
  | .item_title => "&item_title".toList
  | .item_link => "&item_link".toList
  | .item_pubDate => "&item_pubDate".toList
  | .item_desc => "&item_desc".toList
  | .item_authorName => "&item_authorName".toList
  | .item_authorEmail => "&item_authorEmail".toList

/-- The value of a map entry, for document `f` with first item `it`, whose author
is `a`. -/
def Tok.value (f : Feed) (it : Item) (a : Person) : Tok → Str
  | .title => f.Title
  | .desc => f.Description
  | .lang => f.Language
  | .item_title => it.Title
  | .item_link => it.Link
  | .item_pubDate => it.Published
  | .item_desc => it.Description
  | .item_authorName => a.Name
  | .item_authorEmail => a.Email

/-- The nine keys in the order of the map literal. -/
def allToks : List Tok :=
  [.title, .desc, .lang, .item_title, .item_link, .item_pubDate, .item_desc,
   .item_authorName, .item_authorEmail]

/-- One iteration of the inner loop of `synchronize`:
`s = strings.ReplaceAll(s, q, r); s = os.ExpandEnv(s)`. -/
def expandStep (getenv : Str → Str) (f : Feed) (it : Item) (a : Person) (s : Str)
    (q : Tok) : Str :=
  ExpandEnv getenv (ReplaceAll s q.text (q.value f it a))

/-- The inner loop of `synchronize` once the map literal is built (lines 118-119 for
each key): the command line from the template `exec`, the map being iterated in the
order `order`. -/
def expandCommand (getenv : Str → Str) (order : List Tok) (exec : Str) (f : Feed)
    (it : Item) (a : Person) : Str :=
  order.foldl (expandStep getenv f it a) exec

/-! ## Configuration and its store -/

/-- Go `type feedItem struct { Feed string; Last string }`. -/
structure feedItem where
  Feed : Str
  Last : Str
deriving DecidableEq, Repr

/-- Go `type config struct { Exec string; Feeds []feedItem }`. -/
structure config where
  Exec : Str
  Feeds : List feedItem
deriving DecidableEq, Repr

deriving instance DecidableEq for Except

/-- The errors the program returns or panics with. -/
inductive Err
  | notExist
  | EOF
  | json (e : String)
  | fetch (e : String)
  | indexOutOfRange
  | nilPointer
  | command
  | errorsNew (text : String)
deriving DecidableEq, Repr

/-- Lines 106-120 of `synchronize`: the map literal is built first, and evaluating
`f.Items[0].Author.Name` panics with a nil pointer dereference when the item has no
author; otherwise the keys are applied to the template. -/
def buildCommand (getenv : Str → Str) (order : List Tok) (exec : Str) (f : Feed)
    (it : Item) : Except Err Str :=
  match it.Author with
  | none => .error .nilPointer
  | some a => .ok (expandCommand getenv order exec f it a)

/-- The two functions of `encoding/json` the program calls, at type `config`
(`json.Marshal` has no failing case at this type). -/
structure Json where
  Marshal : config → Bytes
  Unmarshal : Bytes → Except String config

/-- Go `bytes.Trim(d, "\x00")`. -/
def trimNul (d : Bytes) : Bytes :=
  ((d.dropWhile (fun b => b = 0)).reverse.dropWhile (fun b => b = 0)).reverse

/-- The buffer `readConfig` hands to `json.Unmarshal` for the file content `data`:
`d := make([]byte, 1000)`, one `f.Read(d)`, then the NUL bytes trimmed. -/
def readBuffer (data : Bytes) : Bytes :=
  trimNul (data.take 1000 ++ List.replicate (1000 - (data.take 1000).length) 0)

/-- Go `readConfig`; the file at the path is `none` when it does not exist. -/
def readConfig (J : Json) (file : Option Bytes) : Except Err config :=
  match file with
  | none => .error .notExist
  | some data =>
    if data = [] then .error .EOF
    else
      match J.Unmarshal (readBuffer data) with
      | .error e => .error (.json e)
      | .ok s => .ok s

/-- Go `writeConfig`: the returned error and the file afterwards. -/
def writeConfig (J : Json) (file : Option Bytes) (c : config) :
    Except Err Unit × Option Bytes :=
  match file with
  | none => (.error .notExist, none)
  | some _ => (.ok (), some (J.Marshal c))

/-- Go `addFeed`: the returned error and the file afterwards. -/
def addFeed (J : Json) (file : Option Bytes) (feed : Str) :
    Except Err Unit × Option Bytes :=
  match readConfig J file with
  | .error e => (.error e, file)
  | .ok s =>
    let flag := s.Feeds.foldl (fun flag v => if v.Feed = feed then true else flag) false
    if flag then (.error (.errorsNew "duplicate feed"), file)
    else writeConfig J file { s with Feeds := s.Feeds ++ [⟨feed, []⟩] }

/-! ## synchronize -/

/-- What a run of `synchronize` depends on outside the program: the environment,
the feed library's answer for the feed at a position, the iteration order of the
map at a position, and whether the shell command run at a position succeeds. -/
structure World where
  getenv : Str → Str
  ParseURL : Nat → Str → Except String Feed
  order : Nat → List Tok
  sh : Nat → Str → Bool

/-- Result of the loop over the feeds: the commands run (with the position of their
feed), and the feeds afterwards or the error the loop panicked with. -/
structure LoopResult where
  ran : List (Nat × Str)
  res : Except Err (List feedItem)

/-- The loop `for i, v := range c.Feeds` of `synchronize`, from position `i` on. -/
def syncFeeds (w : World) (exec : Str) : Nat → List feedItem → LoopResult
  | _, [] => ⟨[], .ok []⟩
  | i, v :: rest =>
    match w.ParseURL i v.Feed with
    | .error e => ⟨[], .error (.fetch e)⟩
    | .ok f =>
      match f.Items with
      | [] => ⟨[], .error .indexOutOfRange⟩
      | it :: _ =>
        if it.Link ≠ v.Last then
          match buildCommand w.getenv (w.order i) exec f it with
          | .error e => ⟨[], .error e⟩
          | .ok s =>
            if w.sh i s then
              let r := syncFeeds w exec (i + 1) rest
              ⟨(i, s) :: r.ran, r.res.map (fun fs => { v with Last := it.Link } :: fs)⟩
            else ⟨[(i, s)], .error .command⟩
        else
          let r := syncFeeds w exec (i + 1) rest
          ⟨r.ran, r.res.map (fun fs => v :: fs)⟩

/-- How a run of `synchronize` ends. -/
inductive Outcome
  | exit0
  | panicked (e : Err)
deriving DecidableEq, Repr

/-- A run of `synchronize`: the commands run, how it ended, the file afterwards. -/
structure Run where
  ran : List (Nat × Str)
  outcome : Outcome
  file : Option Bytes

/-- Go `synchronize`. -/
def synchronize (J : Json) (w : World) (file : Option Bytes) : Run :=
  match readConfig J file with
  | .error e => ⟨[], .panicked e, file⟩
  | .ok c =>
    let r := syncFeeds w c.Exec 0 c.Feeds
    match r.res with
    | .error e => ⟨r.ran, .panicked e, file⟩
    | .ok feeds =>
      match writeConfig J file { c with Feeds := feeds } with
      | (.error e, file1) => ⟨r.ran, .panicked e, file1⟩
      | (.ok _, file1) => ⟨r.ran, .exit0, file1⟩

/-- What `synchronize` builds for the feed at position `i`, from document `f` with
first item `it`: the command, or the panic of the map literal. -/
def commandAt (w : World) (exec : Str) (i : Nat) (f : Feed) (it : Item) : Except Err Str :=
  buildCommand w.getenv (w.order i) exec f it

/-- The feed `v` at position `i` is processed without failure: its fetch returns a
document with at least one item and, when the link differs from `Last`, the command
is built (the item has an author) and succeeds. -/
def fetchedOk (w : World) (exec : Str) (i : Nat) (v : feedItem) : Prop :=
  ∃ f it items, w.ParseURL i v.Feed = .ok f ∧ f.Items = it :: items ∧
    (it.Link ≠ v.Last → ∃ s, commandAt w exec i f it = .ok s ∧ w.sh i s = true)

/-- The commands run for the feed `v` at position `i` when its document is `f` with
first item `it`: the command built, when the link differs from `Last`. -/
def dueAt (w : World) (exec : Str) (i : Nat) (v : feedItem) (f : Feed) (it : Item) :
    List (Nat × Str) :=
  if it.Link ≠ v.Last then
    match commandAt w exec i f it with
    | .ok s => [(i, s)]
    | .error _ => []
  else []

/-- The fetch of feed `v` at position `i` fails, or its command is run and fails. -/
def failsAt (w : World) (exec : Str) (i : Nat) (v : feedItem) : Prop :=
  (∃ e, w.ParseURL i v.Feed = .error e) ∨
  ∃ f it items s, w.ParseURL i v.Feed = .ok f ∧ f.Items = it :: items ∧
    it.Link ≠ v.Last ∧ commandAt w exec i f it = .ok s ∧ w.sh i s = false

/-! ## json.Marshal at type config -/

/-- The bytes of an ASCII text. -/
def ascii (s : String) : Bytes := s.toList.map Char.toNat

/-- A hexadecimal digit, lower case. -/
def hexDigit (n : Nat) : Nat := (ascii "0123456789abcdef").getD n 48

/-- The bytes `encoding/json` writes for one character of a string, by character
code (HTML escaping on, as `json.Marshal` has it): the quote 34 and the backslash 92
behind a backslash, the short escapes of 8, 12, 10, 13 and 9, the six-byte escape of
the other control characters, of `<`, `>`, `&` and of U+2028 and U+2029, and the
UTF-8 bytes of every other character. -/
def escapeChar (c : Char) : Bytes :=
  if c.toNat = 92 ∨ c.toNat = 34 then [92, c.toNat]
  else if c.toNat = 8 then [92, 98]
  else if c.toNat = 12 then [92, 102]
  else if c.toNat = 10 then [92, 110]
  else if c.toNat = 13 then [92, 114]
  else if c.toNat = 9 then [92, 116]
  else if c.toNat < 32 ∨ c = '<' ∨ c = '>' ∨ c = '&' then
    [92, 117, 48, 48, hexDigit (c.toNat / 16), hexDigit (c.toNat % 16)]
  else if c.toNat = 0x2028 ∨ c.toNat = 0x2029 then
    [92, 117, 50, 48, 50, hexDigit (c.toNat % 16)]
  else if c.toNat < 128 then [c.toNat]
  else (String.utf8EncodeChar c).map UInt8.toNat

/-- A JSON string literal. -/
def jsonString (s : Str) : Bytes := [34] ++ s.flatMap escapeChar ++ [34]

/-- The JSON object of a `feedItem`. -/
def jsonFeedItem (v : feedItem) : Bytes :=
  ascii "\x7b\"Feed\":" ++ jsonString v.Feed ++ ascii ",\"Last\":" ++ jsonString v.Last ++
    ascii "\x7d"

/-- Go `json.Marshal(c)` for `c *config`.  Go tells the nil slice, written `null`, from
the empty slice that is not nil, written `[]`; `config` does not, so `nilFeeds` says
which of the two a `Feeds` without elements is. -/
def jsonMarshal (nilFeeds : Bool) (c : config) : Bytes :=
  ascii "\x7b\"Exec\":" ++ jsonString c.Exec ++ ascii ",\"Feeds\":" ++
    (match c.Feeds with
     | [] => if nilFeeds then ascii "null" else [91, 93]
     | v :: vs => [91] ++ jsonFeedItem v ++ vs.flatMap (fun u => 44 :: jsonFeedItem u) ++ [93]) ++
    ascii "\x7d"

/-- The library on the documents `json.Marshal` writes for the configurations
`samples` (a `Feeds` without elements being nil): such a document decodes to its
configuration; every other input is rejected here. -/
def sampleJson (samples : List config) : Json where
  Marshal := jsonMarshal true
  Unmarshal := fun b =>
    match samples.find? (fun c => decide (jsonMarshal true c = b)) with
    | some c => .ok c
    | none => .error "unexpected input"

/-! ## Sample data -/

/-- A feed that was never synchronised. -/
def feedA : feedItem := ⟨"http://a".toList, []⟩
/-- A feed whose fetch fails in `sampleWorld`. -/
def feedB : feedItem := ⟨"http://b".toList, "http://b/0".toList⟩
/-- A feed whose document has no item in `sampleWorld`. -/
def feedE : feedItem := ⟨"http://e".toList, []⟩
/-- The author of `itemA`. -/
def authorA : Person := ⟨"N".toList, []⟩
/-- The newest item of `docA`, with an author. -/
def itemA : Item := ⟨"X".toList, "http://a/1".toList, [], [], some authorA⟩
/-- An item with title `X` and link `http://y`, without author. -/
def itemY : Item := ⟨"X".toList, "http://y".toList, [], [], none⟩
/-- A feed that was never synchronised, whose newest item has no author. -/
def feedY : feedItem := ⟨"http://y".toList, []⟩
/-- The document of `http://y`. -/
def docY : Feed := ⟨"Y".toList, [], [], [itemY]⟩
/-- The document of `http://a`. -/
def docA : Feed := ⟨"A".toList, [], [], [itemA]⟩
/-- The document of `http://e`: a feed without items. -/
def docE : Feed := ⟨"E".toList, [], [], []⟩

/-- A world without environment variables in which every command succeeds,
`http://a` serves `docA`, `http://e` serves `docE`, `http://y` serves `docY` and no
other URL answers. -/
def sampleWorld : World where
  getenv := fun _ => []
  ParseURL := fun _ url =>
    if url = "http://a".toList then .ok docA
    else if url = "http://e".toList then .ok docE
    else if url = "http://y".toList then .ok docY
    else .error "no such host"
  order := fun _ => allToks
  sh := fun _ _ => true

/-- One feed, `http://a`. -/
def cfgA : config := ⟨"echo &item_title".toList, [feedA]⟩
/-- The configuration `cfgA` after a run in `sampleWorld`. -/
def cfgA1 : config := ⟨"echo &item_title".toList, [⟨"http://a".toList, "http://a/1".toList⟩]⟩
/-- Two feeds, the second of which cannot be fetched. -/
def cfgAB : config := ⟨"echo &item_title".toList, [feedA, feedB]⟩
/-- Two feeds, the first of which has no item. -/
def cfgEA : config := ⟨"echo &item_title".toList, [feedE, feedA]⟩
/-- One feed, `http://y`, and the template `&item_title: &item_link`. -/
def cfgY : config := ⟨"&item_title: &item_link".toList, [feedY]⟩

/-! ## Templates as sequences of keys and plain characters -/

/-- A piece of a template: a single character or an occurrence of a key. -/
inductive Piece
  | lit (c : Char)
  | tok (t : Tok)
deriving DecidableEq, Repr

/-- The text of a piece. -/
def Piece.text : Piece → Str
  | .lit c => [c]
  | .tok t => t.text

/-- The text of a sequence of pieces. -/
def piecesText (ps : List Piece) : Str := ps.flatMap Piece.text

/-- The single characters of the sequence are neither `&` nor `$`. -/
def Plain (ps : List Piece) : Prop := ∀ c, Piece.lit c ∈ ps → c ≠ '&' ∧ c ≠ '$'

/-- The sequence with every occurrence of a key replaced by the key's value. -/
def render (vals : Tok → Str) (ps : List Piece) : Str :=
  ps.flatMap (fun p => match p with
    | .lit c => [c]
    | .tok t => vals t)

/-- The sequence with the occurrences of key `t` replaced by the characters of `v`. -/
def substPieces (t : Tok) (v : Str) (ps : List Piece) : List Piece :=
  ps.flatMap (fun p => if p = .tok t then v.map .lit else [p])

/-- The sequence with the occurrences of the keys in `done` replaced by their values. -/
def applied (vals : Tok → Str) (done : List Tok) (ps : List Piece) : List Piece :=
  ps.flatMap (fun p => match p with
    | .lit c => [.lit c]
    | .tok t => if t ∈ done then (vals t).map .lit else [.tok t])

/-- The two passes of the specification: every key replaced in the template, in
the order `order`, then the environment references expanded once. -/
def twoPassExpand (getenv : Str → Str) (order : List Tok) (exec : Str) (f : Feed)
    (it : Item) (a : Person) : Str :=
  ExpandEnv getenv (order.foldl (fun s q => ReplaceAll s q.text (q.value f it a)) exec)

/-- An environment with three variables: `FOO=bar`, `REF=$FOO`, `KEY=&title`. -/
def sampleEnv (name : Str) : Str :=
  if name = "FOO".toList then "bar".toList
  else if name = "REF".toList then "$FOO".toList
  else if name = "KEY".toList then "&title".toList
  else []

/-- A document with title `T`, an empty language and one item. -/
def docT : Feed := ⟨"T".toList, [], [], [itemA]⟩

/-- A document with title `T`, the language `&ti` and one item. -/
def docAmp : Feed := ⟨"T".toList, [], "&ti".toList, [itemA]⟩

/-- A configuration whose template has 1000 characters, without feeds. -/
def cfgBig : config := ⟨List.replicate 1000 'a', []⟩

/-! ## The loop of synchronize -/

theorem syncFeeds_nil (w : World) (exec : Str) (i : Nat) :
    syncFeeds w exec i [] = ⟨[], .ok []⟩ := by
  simp [syncFeeds]

/-- A loop that completes has fetched, for its first feed, a document with a first
item, has run the command when the link differs from `Last`, and has completed on
the remaining feeds. -/
theorem syncFeeds_cons_ok (w : World) (exec : Str) (i : Nat) (v : feedItem)
    (rest out : List feedItem)
    (h : (syncFeeds w exec i (v :: rest)).res = .ok out) :
    ∃ f it items out1, w.ParseURL i v.Feed = .ok f ∧ f.Items = it :: items ∧
      (it.Link ≠ v.Last → ∃ s, commandAt w exec i f it = .ok s ∧ w.sh i s = true) ∧
      (syncFeeds w exec (i + 1) rest).res = .ok out1 ∧
      out = { v with Last := it.Link } :: out1 ∧
      (syncFeeds w exec i (v :: rest)).ran =
        dueAt w exec i v f it ++ (syncFeeds w exec (i + 1) rest).ran := by
  rw [syncFeeds] at h ⊢
  cases hp : w.ParseURL i v.Feed with
  | error e => simp [hp] at h
  | ok f =>
    cases hi : f.Items with
    | nil => simp [hp, hi] at h
    | cons it items =>
      simp only [hp, hi] at h ⊢
      by_cases hl : it.Link = v.Last
      · simp only [hl, ne_eq, not_true_eq_false, if_false] at h ⊢
        cases hr : (syncFeeds w exec (i + 1) rest).res with
        | error e => simp [hr, Except.map] at h
        | ok out1 =>
          simp only [hr, Except.map, Except.ok.injEq] at h
          refine ⟨f, it, items, out1, rfl, hi, ?_, rfl, ?_, ?_⟩
          · intro hne; exact absurd hl hne
          · rw [← h, hl]
          · simp [dueAt, hl]
      · simp only [ne_eq, hl, not_false_eq_true, if_true] at h ⊢
        cases hb : buildCommand w.getenv (w.order i) exec f it with
        | error e => simp [hb] at h
        | ok s =>
          simp only [hb] at h ⊢
          by_cases hs : w.sh i s = true
          · simp only [hs, if_true] at h ⊢
            cases hr : (syncFeeds w exec (i + 1) rest).res with
            | error e => simp [hr, Except.map] at h
            | ok out1 =>
              simp only [hr, Except.map, Except.ok.injEq] at h
              refine ⟨f, it, items, out1, rfl, hi, ?_, rfl, h.symm, ?_⟩
              · intro _; exact ⟨s, hb, hs⟩
              · simp [dueAt, commandAt, hl, hb]
          · simp [hs] at h

/-- The loop on a first feed that is processed without failure. -/
theorem syncFeeds_cons_of (w : World) (exec : Str) (i : Nat) (v : feedItem)
    (rest : List feedItem) (f : Feed) (it : Item) (items : List Item)
    (hp : w.ParseURL i v.Feed = .ok f) (hi : f.Items = it :: items)
    (hs : it.Link ≠ v.Last → ∃ s, commandAt w exec i f it = .ok s ∧ w.sh i s = true) :
    syncFeeds w exec i (v :: rest) =
      ⟨dueAt w exec i v f it ++ (syncFeeds w exec (i + 1) rest).ran,
        (syncFeeds w exec (i + 1) rest).res.map (fun fs => { v with Last := it.Link } :: fs)⟩ := by
  rw [syncFeeds]
  simp only [hp, hi]
  by_cases hl : it.Link = v.Last
  · simp only [dueAt, hl, ne_eq, not_true_eq_false, if_false, List.nil_append]
  · obtain ⟨s, hb, hs1⟩ := hs hl
    simp only [commandAt] at hb
    simp [dueAt, hl, hs1, commandAt, hb]

/-- The loop on a first feed that fails. -/
theorem syncFeeds_cons_fail (w : World) (exec : Str) (i : Nat) (v : feedItem)
    (rest : List feedItem) (h : failsAt w exec i v) :
    ∃ e, (syncFeeds w exec i (v :: rest)).res = .error e := by
  rw [syncFeeds]
  rcases h with ⟨e, he⟩ | ⟨f, it, items, s, hp, hi, hl, hb, hs⟩
  · exact ⟨.fetch e, by simp [he]⟩
  · simp only [commandAt] at hb
    exact ⟨.command, by simp [hp, hi, hl, hb, hs]⟩

/-- Every command the loop runs from position `i` on belongs to a position `≥ i`. -/
theorem syncFeeds_ran_ge (w : World) (exec : Str) (feeds : List feedItem) :
    ∀ i p, p ∈ (syncFeeds w exec i feeds).ran → i ≤ p.1 := by
  induction feeds with
  | nil => intro i p hp; simp [syncFeeds] at hp
  | cons v rest ih =>
    intro i p hp
    rw [syncFeeds] at hp
    cases hpu : w.ParseURL i v.Feed with
    | error e => simp [hpu] at hp
    | ok f =>
      cases hi : f.Items with
      | nil => simp [hpu, hi] at hp
      | cons it items =>
        simp only [hpu, hi] at hp
        by_cases hl : it.Link = v.Last
        · simp only [hl, ne_eq, not_true_eq_false, if_false] at hp
          exact Nat.le_of_succ_le (ih (i + 1) p hp)
        · simp only [ne_eq, hl, not_false_eq_true, if_true] at hp
          cases hb : buildCommand w.getenv (w.order i) exec f it with
          | error e => simp [hb] at hp
          | ok s =>
            simp only [hb] at hp
            by_cases hs : w.sh i s = true
            · simp only [hs, if_true, List.mem_cons] at hp
              rcases hp with rfl | hp
              · exact le_refl _
              · exact Nat.le_of_succ_le (ih (i + 1) p hp)
            · simp only [hs, Bool.false_eq_true, if_false, List.mem_singleton] at hp
              rw [hp]

/-- When every feed is processed without failure the loop completes; the feed at
each position then carries its newest link, and exactly the positions whose link
differed from `Last` have had their command run, once. -/
theorem syncFeeds_all_ok (w : World) (exec : Str) (feeds : List feedItem) :
    ∀ i, (∀ j v, feeds[j]? = some v → fetchedOk w exec (i + j) v) →
      ∃ out, (syncFeeds w exec i feeds).res = .ok out ∧
        ∀ k v f it items, feeds[k]? = some v → w.ParseURL (i + k) v.Feed = .ok f →
          f.Items = it :: items →
          out[k]? = some { v with Last := it.Link } ∧
          (syncFeeds w exec i feeds).ran.filter (fun p => decide (p.1 = i + k)) =
            dueAt w exec (i + k) v f it := by
  induction feeds with
  | nil =>
    intro i _
    exact ⟨[], by simp [syncFeeds], by intro k v f it items hk; simp at hk⟩
  | cons v0 rest ih =>
    intro i hall
    obtain ⟨f0, it0, items0, hp0, hi0, hs0⟩ := hall 0 v0 (by simp)
    simp only [Nat.add_zero] at hp0 hs0
    have hall1 : ∀ j v, rest[j]? = some v → fetchedOk w exec (i + 1 + j) v := by
      intro j v hj
      have := hall (j + 1) v (by simpa using hj)
      rwa [show i + (j + 1) = i + 1 + j by omega] at this
    obtain ⟨out1, hres1, hrest⟩ := ih (i + 1) hall1
    rw [syncFeeds_cons_of w exec i v0 rest f0 it0 items0 hp0 hi0 hs0]
    refine ⟨{ v0 with Last := it0.Link } :: out1, by simp [hres1, Except.map], ?_⟩
    intro k v f it items hk hp hi
    cases k with
    | zero =>
      simp only [List.getElem?_cons_zero, Option.some.injEq] at hk
      subst hk
      simp only [Nat.add_zero] at hp ⊢
      rw [hp0] at hp
      cases hp
      rw [hi0] at hi
      cases hi
      refine ⟨by simp, ?_⟩
      have hnone : (syncFeeds w exec (i + 1) rest).ran.filter (fun p => decide (p.1 = i)) = [] := by
        rw [List.filter_eq_nil_iff]
        intro p hp
        have := syncFeeds_ran_ge w exec rest (i + 1) p hp
        simp only [decide_eq_true_eq]
        omega
      rw [List.filter_append, hnone, List.append_nil, List.filter_eq_self]
      intro p hp
      simp only [dueAt] at hp
      split at hp
      · split at hp
        · simp only [List.mem_singleton] at hp
          subst hp
          simp
        · simp at hp
      · simp at hp
    | succ k =>
      simp only [List.getElem?_cons_succ] at hk
      rw [show i + (k + 1) = i + 1 + k by omega] at hp ⊢
      obtain ⟨h1, h2⟩ := hrest k v f it items hk hp hi
      refine ⟨by simpa using h1, ?_⟩
      rw [List.filter_append, h2]
      have : (dueAt w exec i v0 f0 it0).filter (fun p => decide (p.1 = i + 1 + k)) = [] := by
        rw [List.filter_eq_nil_iff]
        intro p hp
        simp only [dueAt] at hp
        split at hp
        · split at hp
          · simp only [List.mem_singleton] at hp
            subst hp
            simp only [decide_eq_true_eq]
            omega
          · simp at hp
        · simp at hp
      rw [this, List.nil_append]

/-- When the feeds before position `k` are processed without failure and the feed
at `k` fails, the loop ends with an error. -/
theorem syncFeeds_fail_at (w : World) (exec : Str) (feeds : List feedItem) :
    ∀ i k v, (∀ j u, j < k → feeds[j]? = some u → fetchedOk w exec (i + j) u) →
      feeds[k]? = some v → failsAt w exec (i + k) v →
      ∃ e, (syncFeeds w exec i feeds).res = .error e := by
  induction feeds with
  | nil => intro i k v _ hk; simp at hk
  | cons v0 rest ih =>
    intro i k v hbefore hk hfail
    cases k with
    | zero =>
      simp only [List.getElem?_cons_zero, Option.some.injEq] at hk
      subst hk
      exact syncFeeds_cons_fail w exec i v0 rest hfail
    | succ k =>
      obtain ⟨f0, it0, items0, hp0, hi0, hs0⟩ := hbefore 0 v0 (by omega) (by simp)
      simp only [Nat.add_zero] at hp0 hs0
      rw [syncFeeds_cons_of w exec i v0 rest f0 it0 items0 hp0 hi0 hs0]
      simp only [List.getElem?_cons_succ] at hk
      rw [show i + (k + 1) = i + 1 + k by omega] at hfail
      obtain ⟨e, he⟩ := ih (i + 1) k v (by
        intro j u hj hu
        have := hbefore (j + 1) u (by omega) (by simpa using hu)
        rwa [show i + (j + 1) = i + 1 + j by omega] at this) hk hfail
      exact ⟨e, by simp [he, Except.map]⟩

/-- A loop that completes keeps the number of feeds and each feed URL, and leaves
each `Last` as it was or sets it to the first link of the document fetched for
that position, whose command succeeded. -/
theorem syncFeeds_frame (w : World) (exec : Str) (feeds : List feedItem) :
    ∀ i out, (syncFeeds w exec i feeds).res = .ok out →
      out.length = feeds.length ∧ out.map feedItem.Feed = feeds.map feedItem.Feed ∧
      ∀ k v, feeds[k]? = some v → ∃ v1, out[k]? = some v1 ∧
        (v1.Last = v.Last ∨ ∃ f it items s, w.ParseURL (i + k) v.Feed = .ok f ∧
          f.Items = it :: items ∧ v1.Last = it.Link ∧
          commandAt w exec (i + k) f it = .ok s ∧ w.sh (i + k) s = true) := by
  induction feeds with
  | nil =>
    intro i out h
    simp only [syncFeeds, Except.ok.injEq] at h
    subst h
    simp
  | cons v0 rest ih =>
    intro i out h
    obtain ⟨f0, it0, items0, out1, hp0, hi0, hs0, hres1, hout, _⟩ :=
      syncFeeds_cons_ok w exec i v0 rest out h
    obtain ⟨hlen, hmap, hrest⟩ := ih (i + 1) out1 hres1
    subst hout
    refine ⟨by simp [hlen], by simp [hmap], ?_⟩
    intro k v hk
    cases k with
    | zero =>
      simp only [List.getElem?_cons_zero, Option.some.injEq] at hk
      subst hk
      refine ⟨{ v0 with Last := it0.Link }, by simp, ?_⟩
      by_cases hl : it0.Link = v0.Last
      · exact Or.inl hl
      · obtain ⟨s, hb, hs⟩ := hs0 hl
        exact Or.inr ⟨f0, it0, items0, s, hp0, hi0, rfl, hb, hs⟩
    | succ k =>
      simp only [List.getElem?_cons_succ] at hk
      obtain ⟨v1, hv1, hor⟩ := hrest k v hk
      refine ⟨v1, by simpa using hv1, ?_⟩
      rw [show i + (k + 1) = i + 1 + k by omega]
      exact hor

/-- A loop that completed, run again on the feeds it produced with the same
documents, runs no command and leaves the feeds as they are. -/
theorem syncFeeds_again (w : World) (exec : Str) (feeds : List feedItem) :
    ∀ i out, (syncFeeds w exec i feeds).res = .ok out →
      syncFeeds w exec i out = ⟨[], .ok out⟩ := by
  induction feeds with
  | nil =>
    intro i out h
    simp only [syncFeeds, Except.ok.injEq] at h
    subst h
    simp [syncFeeds]
  | cons v0 rest ih =>
    intro i out h
    obtain ⟨f0, it0, items0, out1, hp0, hi0, _, hres1, hout, _⟩ :=
      syncFeeds_cons_ok w exec i v0 rest out h
    subst hout
    rw [syncFeeds_cons_of w exec i { v0 with Last := it0.Link } out1 f0 it0 items0 hp0 hi0
      (by intro hne; exact absurd rfl hne)]
    rw [ih (i + 1) out1 hres1]
    simp [Except.map, dueAt]

/-! ## Runs of synchronize -/

/-- A file that `readConfig` reads exists. -/
theorem readConfig_ok_some (J : Json) (file : Option Bytes) (c : config)
    (h : readConfig J file = .ok c) : ∃ data, file = some data := by
  cases file with
  | none => simp [readConfig] at h
  | some data => exact ⟨data, rfl⟩

/-- A run whose loop ends with an error panics and leaves the file as it was. -/
theorem synchronize_loop_error (J : Json) (w : World) (file : Option Bytes) (c : config)
    (e : Err) (hload : readConfig J file = .ok c)
    (hres : (syncFeeds w c.Exec 0 c.Feeds).res = .error e) :
    synchronize J w file = ⟨(syncFeeds w c.Exec 0 c.Feeds).ran, .panicked e, file⟩ := by
  simp [synchronize, hload, hres]

/-- A run whose loop completes writes the configuration with the feeds of the loop
and exits with status 0. -/
theorem synchronize_loop_ok (J : Json) (w : World) (file : Option Bytes) (c : config)
    (feeds : List feedItem) (hload : readConfig J file = .ok c)
    (hres : (syncFeeds w c.Exec 0 c.Feeds).res = .ok feeds) :
    synchronize J w file =
      ⟨(syncFeeds w c.Exec 0 c.Feeds).ran, .exit0, some (J.Marshal ⟨c.Exec, feeds⟩)⟩ := by
  obtain ⟨data, rfl⟩ := readConfig_ok_some J file c hload
  simp [synchronize, hload, hres, writeConfig]

/-- A run that exits with status 0 has completed its loop. -/
theorem synchronize_exit0 (J : Json) (w : World) (file : Option Bytes) (c : config)
    (hload : readConfig J file = .ok c) (h : (synchronize J w file).outcome = .exit0) :
    ∃ feeds, (syncFeeds w c.Exec 0 c.Feeds).res = .ok feeds := by
  cases hres : (syncFeeds w c.Exec 0 c.Feeds).res with
  | error e =>
    rw [synchronize_loop_error J w file c e hload hres] at h
    simp at h
  | ok feeds => exact ⟨feeds, rfl⟩

/-- A command is built exactly for an item with an author. -/
theorem buildCommand_ok (getenv : Str → Str) (order : List Tok) (exec : Str) (f : Feed)
    (it : Item) (s : Str) (h : buildCommand getenv order exec f it = .ok s) :
    ∃ a, it.Author = some a ∧ s = expandCommand getenv order exec f it a := by
  unfold buildCommand at h
  cases ha : it.Author with
  | none => simp [ha] at h
  | some a =>
    simp only [ha, Except.ok.injEq] at h
    exact ⟨a, rfl, h.symm⟩

/-! ## Claims on synchronize -/

/-- C1, as stated, fails: with the feeds `http://e` (a document without items) and
`http://a` (newest link `http://a/1`, `Last` empty), every fetch succeeds and every
command succeeds, yet the run panics at `f.Items[0]` of the first feed, runs no
command and leaves the file as it was. -/
theorem sync_dispatch_counterexample :
    readConfig (sampleJson [cfgEA]) (some (jsonMarshal true cfgEA)) = .ok cfgEA ∧
    (∀ j v, cfgEA.Feeds[j]? = some v → ∃ f, sampleWorld.ParseURL j v.Feed = .ok f) ∧
    (∀ i s, sampleWorld.sh i s = true) ∧
    cfgEA.Feeds[1]? = some feedA ∧ sampleWorld.ParseURL 1 feedA.Feed = .ok docA ∧
    docA.Items = [itemA] ∧ itemA.Link ≠ feedA.Last ∧
    (synchronize (sampleJson [cfgEA]) sampleWorld (some (jsonMarshal true cfgEA))).outcome
      = .panicked .indexOutOfRange ∧
    (synchronize (sampleJson [cfgEA]) sampleWorld (some (jsonMarshal true cfgEA))).ran = [] ∧
    (synchronize (sampleJson [cfgEA]) sampleWorld (some (jsonMarshal true cfgEA))).file
      = some (jsonMarshal true cfgEA) := by
  have hload : readConfig (sampleJson [cfgEA]) (some (jsonMarshal true cfgEA)) = .ok cfgEA := by
    decide
  have hres : (syncFeeds sampleWorld cfgEA.Exec 0 cfgEA.Feeds) = ⟨[], .error .indexOutOfRange⟩ := by
    rfl
  refine ⟨hload, ?_, fun _ _ => rfl, rfl, rfl, rfl, by decide, ?_, ?_, ?_⟩
  · intro j v hj
    match j, hj with
    | 0, hj => cases hj; exact ⟨docE, rfl⟩
    | 1, hj => cases hj; exact ⟨docA, rfl⟩
  all_goals
    rw [synchronize_loop_error _ _ _ _ .indexOutOfRange hload (by rw [hres])]
  · rw [hres]

/-- C1, amended: when the configuration is loaded and every feed is processed
without failure (its fetch returns a document with at least one item and, when the
newest link differs from `Last`, the newest item has an author and the command
succeeds), then for the feed at position `k` with stored `Last` different from the
newest link of its document the run exits with status 0, has run exactly one command
for position `k`, the expansion of the template against that document, and has saved
a configuration whose feed at `k` has `Last` equal to the newest link. -/
theorem sync_dispatches_once (J : Json) (w : World) (file : Option Bytes) (c : config)
    (hload : readConfig J file = .ok c)
    (hall : ∀ j u, c.Feeds[j]? = some u → fetchedOk w c.Exec j u)
    (k : Nat) (v : feedItem) (f : Feed) (it : Item) (items : List Item)
    (hk : c.Feeds[k]? = some v) (hp : w.ParseURL k v.Feed = .ok f)
    (hi : f.Items = it :: items) (hne : it.Link ≠ v.Last) :
    (synchronize J w file).outcome = .exit0 ∧
    (∃ a, it.Author = some a ∧
      (synchronize J w file).ran.filter (fun p => decide (p.1 = k)) =
        [(k, expandCommand w.getenv (w.order k) c.Exec f it a)]) ∧
    ∃ c1, (synchronize J w file).file = some (J.Marshal c1) ∧ c1.Exec = c.Exec ∧
      c1.Feeds[k]? = some ⟨v.Feed, it.Link⟩ := by
  obtain ⟨out, hres, hpos⟩ := syncFeeds_all_ok w c.Exec c.Feeds 0
    (by intro j u hj; simpa using hall j u hj)
  obtain ⟨h1, h2⟩ := hpos k v f it items hk (by simpa using hp) hi
  obtain ⟨f1, it1, items1, hp1, hi1, hs1⟩ := hall k v hk
  rw [hp] at hp1
  cases hp1
  rw [hi] at hi1
  cases hi1
  obtain ⟨s, hb, _⟩ := hs1 hne
  obtain ⟨a, ha, hsa⟩ := buildCommand_ok _ _ _ _ _ _ hb
  rw [synchronize_loop_ok J w file c out hload hres]
  refine ⟨rfl, ⟨a, ha, ?_⟩, ⟨c.Exec, out⟩, rfl, rfl, h1⟩
  simp only [Nat.zero_add] at h2
  simp only [h2, dueAt, ne_eq, hne, not_false_eq_true, if_true, hb, hsa]

/-- Witness of `sync_dispatches_once`: the configuration `cfgA` in `sampleWorld`. -/
theorem sync_dispatches_once_witness :
    (synchronize (sampleJson [cfgA]) sampleWorld (some (jsonMarshal true cfgA))).outcome = .exit0 ∧
    (∃ a, itemA.Author = some a ∧
      (synchronize (sampleJson [cfgA]) sampleWorld (some (jsonMarshal true cfgA))).ran.filter
          (fun p => decide (p.1 = 0)) =
        [(0, expandCommand sampleWorld.getenv (sampleWorld.order 0) cfgA.Exec docA itemA a)]) ∧
    ∃ c1, (synchronize (sampleJson [cfgA]) sampleWorld (some (jsonMarshal true cfgA))).file
        = some ((sampleJson [cfgA]).Marshal c1) ∧ c1.Exec = cfgA.Exec ∧
      c1.Feeds[0]? = some ⟨feedA.Feed, itemA.Link⟩ :=
  sync_dispatches_once (sampleJson [cfgA]) sampleWorld (some (jsonMarshal true cfgA)) cfgA
    (by decide)
    (by
      intro j u hj
      match j, hj with
      | 0, hj => cases hj; exact ⟨docA, itemA, [], rfl, rfl, fun _ => ⟨_, rfl, rfl⟩⟩)
    0 feedA docA itemA [] rfl rfl rfl (by decide)

/-- C2: when a run of `synchronize` exits with status 0 and the configuration it saved
is loaded by a second run in the same world (same documents), the second run runs no
command, exits with status 0 and leaves the file as the first run wrote it; and in the
loop a feed whose newest link equals its `Last` runs no command and stays as it is. -/
theorem sync_twice_is_noop (J : Json) (w : World) (file : Option Bytes) (c : config)
    (hload : readConfig J file = .ok c)
    (hrun : (synchronize J w file).outcome = .exit0)
    (hreload : ∀ feeds, (syncFeeds w c.Exec 0 c.Feeds).res = .ok feeds →
      readConfig J (some (J.Marshal ⟨c.Exec, feeds⟩)) = .ok ⟨c.Exec, feeds⟩) :
    ((synchronize J w (synchronize J w file).file).ran = [] ∧
      (synchronize J w (synchronize J w file).file).outcome = .exit0 ∧
      (synchronize J w (synchronize J w file).file).file = (synchronize J w file).file) ∧
    ∀ exec i v rest f it items, w.ParseURL i v.Feed = .ok f → f.Items = it :: items →
      it.Link = v.Last →
      syncFeeds w exec i (v :: rest) =
        ⟨(syncFeeds w exec (i + 1) rest).ran,
          (syncFeeds w exec (i + 1) rest).res.map (fun fs => v :: fs)⟩ := by
  constructor
  · obtain ⟨feeds, hres⟩ := synchronize_exit0 J w file c hload hrun
    have hagain := syncFeeds_again w c.Exec c.Feeds 0 feeds hres
    rw [synchronize_loop_ok J w file c feeds hload hres]
    have h2 := synchronize_loop_ok J w (some (J.Marshal ⟨c.Exec, feeds⟩)) ⟨c.Exec, feeds⟩ feeds
      (hreload feeds hres) (by rw [hagain])
    simp only at h2 ⊢
    rw [h2, hagain]
    exact ⟨rfl, rfl, rfl⟩
  · intro exec i v rest f it items hp hi hl
    rw [syncFeeds_cons_of w exec i v rest f it items hp hi (fun hne => absurd hl hne)]
    simp only [dueAt, hl, ne_eq, not_true_eq_false, if_false, List.nil_append]

/-- Witness of `sync_twice_is_noop`: the configuration `cfgA` in `sampleWorld`. -/
theorem sync_twice_is_noop_witness :
    ((synchronize (sampleJson [cfgA, cfgA1]) sampleWorld
        (synchronize (sampleJson [cfgA, cfgA1]) sampleWorld (some (jsonMarshal true cfgA))).file).ran
        = [] ∧
      (synchronize (sampleJson [cfgA, cfgA1]) sampleWorld
        (synchronize (sampleJson [cfgA, cfgA1]) sampleWorld (some (jsonMarshal true cfgA))).file).outcome
        = .exit0 ∧
      (synchronize (sampleJson [cfgA, cfgA1]) sampleWorld
        (synchronize (sampleJson [cfgA, cfgA1]) sampleWorld (some (jsonMarshal true cfgA))).file).file
        = (synchronize (sampleJson [cfgA, cfgA1]) sampleWorld (some (jsonMarshal true cfgA))).file) ∧
    ∀ exec i v rest f it items, sampleWorld.ParseURL i v.Feed = .ok f → f.Items = it :: items →
      it.Link = v.Last →
      syncFeeds sampleWorld exec i (v :: rest) =
        ⟨(syncFeeds sampleWorld exec (i + 1) rest).ran,
          (syncFeeds sampleWorld exec (i + 1) rest).res.map (fun fs => v :: fs)⟩ :=
  sync_twice_is_noop (sampleJson [cfgA, cfgA1]) sampleWorld (some (jsonMarshal true cfgA)) cfgA
    (by decide) (by decide)
    (by
      intro feeds hres
      have h : (syncFeeds sampleWorld cfgA.Exec 0 cfgA.Feeds).res = .ok cfgA1.Feeds := by rfl
      rw [h] at hres
      cases hres
      decide)

/-- C3, as stated, fails: with the feeds `http://a` (newest link `http://a/1`, `Last`
empty, command succeeding) and `http://b` (fetch failing), the run has run the command
of the first feed and then panics; the file is the one it loaded, in which the first
feed still has the empty `Last`, not its newest link. -/
theorem sync_failure_counterexample :
    readConfig (sampleJson [cfgAB]) (some (jsonMarshal true cfgAB)) = .ok cfgAB ∧
    cfgAB.Feeds[1]? = some feedB ∧
    sampleWorld.ParseURL 1 feedB.Feed = .error "no such host" ∧
    fetchedOk sampleWorld cfgAB.Exec 0 feedA ∧
    (synchronize (sampleJson [cfgAB]) sampleWorld (some (jsonMarshal true cfgAB))).ran
      = [(0, "echo X".toList)] ∧
    (synchronize (sampleJson [cfgAB]) sampleWorld (some (jsonMarshal true cfgAB))).outcome
      = .panicked (.fetch "no such host") ∧
    readConfig (sampleJson [cfgAB])
      (synchronize (sampleJson [cfgAB]) sampleWorld (some (jsonMarshal true cfgAB))).file
      = .ok cfgAB ∧
    cfgAB.Feeds[0]? = some feedA ∧ feedA.Last ≠ itemA.Link := by
  have hload : readConfig (sampleJson [cfgAB]) (some (jsonMarshal true cfgAB)) = .ok cfgAB := by
    decide
  have hres : (syncFeeds sampleWorld cfgAB.Exec 0 cfgAB.Feeds)
      = ⟨[(0, "echo X".toList)], .error (.fetch "no such host")⟩ := by
    rfl
  have hrun := synchronize_loop_error _ sampleWorld _ _ (.fetch "no such host") hload
    (by rw [hres])
  rw [hrun, hres]
  exact ⟨hload, rfl, rfl, ⟨docA, itemA, [], rfl, rfl, fun _ => ⟨_, rfl, rfl⟩⟩, rfl, rfl, hload, rfl,
    by decide⟩

/-- C3, amended: when the configuration is loaded, the feeds before position `k` are
processed without failure and the fetch or the command of the feed at `k` fails, the
run panics and writes nothing: the file is the one that was loaded, so every feed
keeps its stored `Last`. -/
theorem sync_failure_keeps_file (J : Json) (w : World) (file : Option Bytes) (c : config)
    (hload : readConfig J file = .ok c) (k : Nat) (v : feedItem)
    (hbefore : ∀ j u, j < k → c.Feeds[j]? = some u → fetchedOk w c.Exec j u)
    (hk : c.Feeds[k]? = some v) (hfail : failsAt w c.Exec k v) :
    (∃ e, (synchronize J w file).outcome = .panicked e) ∧
    (synchronize J w file).file = file ∧
    readConfig J (synchronize J w file).file = .ok c := by
  obtain ⟨e, he⟩ := syncFeeds_fail_at w c.Exec c.Feeds 0 k v
    (by intro j u hj hu; simpa using hbefore j u hj hu) hk (by simpa using hfail)
  rw [synchronize_loop_error J w file c e hload he]
  exact ⟨⟨e, rfl⟩, rfl, hload⟩

/-- Witness of `sync_failure_keeps_file`: `cfgAB` in `sampleWorld`, failing at 1. -/
theorem sync_failure_keeps_file_witness :
    (∃ e, (synchronize (sampleJson [cfgAB]) sampleWorld (some (jsonMarshal true cfgAB))).outcome
      = .panicked e) ∧
    (synchronize (sampleJson [cfgAB]) sampleWorld (some (jsonMarshal true cfgAB))).file
      = some (jsonMarshal true cfgAB) ∧
    readConfig (sampleJson [cfgAB])
      (synchronize (sampleJson [cfgAB]) sampleWorld (some (jsonMarshal true cfgAB))).file
      = .ok cfgAB :=
  sync_failure_keeps_file (sampleJson [cfgAB]) sampleWorld (some (jsonMarshal true cfgAB)) cfgAB
    (by decide) 1 feedB
    (by
      intro j u hj hu
      match j, hj, hu with
      | 0, _, hu => cases hu; exact ⟨docA, itemA, [], rfl, rfl, fun _ => ⟨_, rfl, rfl⟩⟩)
    rfl (Or.inl ⟨"no such host", rfl⟩)

/-- C9: when the configuration is loaded and the run of `synchronize` exits with status
0 (it reached the save), the saved configuration has the template, the number of feeds
and the feed URLs, in order, of the loaded one, and each feed's `Last` is the loaded
value or the newest link of the document fetched for it, whose command succeeded. -/
theorem sync_changes_only_last (J : Json) (w : World) (file : Option Bytes) (c : config)
    (hload : readConfig J file = .ok c)
    (hrun : (synchronize J w file).outcome = .exit0) :
    ∃ c1, (synchronize J w file).file = some (J.Marshal c1) ∧ c1.Exec = c.Exec ∧
      c1.Feeds.length = c.Feeds.length ∧
      c1.Feeds.map feedItem.Feed = c.Feeds.map feedItem.Feed ∧
      ∀ k v, c.Feeds[k]? = some v → ∃ v1, c1.Feeds[k]? = some v1 ∧
        (v1.Last = v.Last ∨ ∃ f it items s, w.ParseURL k v.Feed = .ok f ∧
          f.Items = it :: items ∧ v1.Last = it.Link ∧
          buildCommand w.getenv (w.order k) c.Exec f it = .ok s ∧ w.sh k s = true) := by
  obtain ⟨feeds, hres⟩ := synchronize_exit0 J w file c hload hrun
  obtain ⟨hlen, hmap, hpos⟩ := syncFeeds_frame w c.Exec c.Feeds 0 feeds hres
  rw [synchronize_loop_ok J w file c feeds hload hres]
  refine ⟨⟨c.Exec, feeds⟩, rfl, rfl, hlen, hmap, ?_⟩
  intro k v hk
  obtain ⟨v1, hv1, hor⟩ := hpos k v hk
  simp only [Nat.zero_add, commandAt] at hor
  exact ⟨v1, hv1, hor⟩

/-- Witness of `sync_changes_only_last`: the configuration `cfgA` in `sampleWorld`. -/
theorem sync_changes_only_last_witness :
    ∃ c1, (synchronize (sampleJson [cfgA]) sampleWorld (some (jsonMarshal true cfgA))).file
        = some ((sampleJson [cfgA]).Marshal c1) ∧ c1.Exec = cfgA.Exec ∧
      c1.Feeds.length = cfgA.Feeds.length ∧
      c1.Feeds.map feedItem.Feed = cfgA.Feeds.map feedItem.Feed ∧
      ∀ k v, cfgA.Feeds[k]? = some v → ∃ v1, c1.Feeds[k]? = some v1 ∧
        (v1.Last = v.Last ∨ ∃ f it items s, sampleWorld.ParseURL k v.Feed = .ok f ∧
          f.Items = it :: items ∧ v1.Last = it.Link ∧
          buildCommand sampleWorld.getenv (sampleWorld.order k) cfgA.Exec f it = .ok s ∧
          sampleWorld.sh k s = true) :=
  sync_changes_only_last (sampleJson [cfgA]) sampleWorld (some (jsonMarshal true cfgA)) cfgA
    (by decide) (by decide)

/-! ## Expansion of the command template -/

theorem expandGo_no_dollar (m : Str → Str) (s : Str) (h : ∀ c ∈ s, c ≠ '$') :
    expandGo m 0 s = s := by
  induction s with
  | nil => simp [expandGo]
  | cons c s ih =>
    have hc : c ≠ '$' := h c (by simp)
    have hs : ∀ d ∈ s, d ≠ '$' := fun d hd => h d (by simp [hd])
    simp [expandGo, hc, ih hs]

/-- Without a `$` in it a text is left as it is by `os.ExpandEnv`. -/
theorem ExpandEnv_no_dollar (getenv : Str → Str) (s : Str) (h : ∀ c ∈ s, c ≠ '$') :
    ExpandEnv getenv s = s :=
  expandGo_no_dollar getenv s h

theorem hasPrefix_append (p r : Str) : hasPrefix p (p ++ r) = true := by
  induction p with
  | nil => simp [hasPrefix]
  | cons c p ih => simp [hasPrefix, ih]

theorem replaceGo_skip (old new : Str) (xs rest : Str) :
    replaceGo old new xs.length (xs ++ rest) = replaceGo old new 0 rest := by
  induction xs with
  | nil => simp
  | cons c xs ih => simp [replaceGo, ih]

/-- At an occurrence of `old` the scan writes `new` and goes on after it. -/
theorem replaceGo_match (c : Char) (tl new rest : Str) :
    replaceGo (c :: tl) new 0 (c :: tl ++ rest) = new ++ replaceGo (c :: tl) new 0 rest := by
  have hp : hasPrefix (c :: tl) (c :: (tl ++ rest)) = true := hasPrefix_append (c :: tl) rest
  show replaceGo (c :: tl) new 0 (c :: (tl ++ rest)) = _
  rw [replaceGo, if_pos hp]
  simp only [List.length_cons, Nat.add_sub_cancel]
  rw [replaceGo_skip]

/-- The texts of the nine keys, character by character. -/
theorem Tok.text_eq (t : Tok) : t.text =
    match t with
    | .title => ['&', 't', 'i', 't', 'l', 'e']
    | .desc => ['&', 'd', 'e', 's', 'c']
    | .lang => ['&', 'l', 'a', 'n', 'g']
    | .item_title => ['&', 'i', 't', 'e', 'm', '_', 't', 'i', 't', 'l', 'e']
    | .item_link => ['&', 'i', 't', 'e', 'm', '_', 'l', 'i', 'n', 'k']
    | .item_pubDate => ['&', 'i', 't', 'e', 'm', '_', 'p', 'u', 'b', 'D', 'a', 't', 'e']
    | .item_desc => ['&', 'i', 't', 'e', 'm', '_', 'd', 'e', 's', 'c']
    | .item_authorName =>
      ['&', 'i', 't', 'e', 'm', '_', 'a', 'u', 't', 'h', 'o', 'r', 'N', 'a', 'm', 'e']
    | .item_authorEmail =>
      ['&', 'i', 't', 'e', 'm', '_', 'a', 'u', 't', 'h', 'o', 'r', 'E', 'm', 'a', 'i', 'l'] := by
  cases t <;> rfl

/-- Every key starts with `&` and has no other `&` and no `$`. -/
theorem Tok.text_shape (t : Tok) :
    ∃ tl, t.text = '&' :: tl ∧ ∀ c ∈ tl, c ≠ '&' ∧ c ≠ '$' := by
  cases t <;> exact ⟨_, rfl, by decide⟩

/-- A character other than `&` is copied by the scan for a key. -/
theorem replaceGo_other (t : Tok) (new : Str) (c : Char) (rest : Str) (hc : c ≠ '&') :
    replaceGo t.text new 0 (c :: rest) = c :: replaceGo t.text new 0 rest := by
  obtain ⟨tl, htl, _⟩ := t.text_shape
  have hc1 : ¬ ('&' = c) := fun h => hc h.symm
  simp [htl, replaceGo, hasPrefix, hc1]

/-- An occurrence of another key is copied by the scan for a key. -/
theorem replaceGo_other_tok (t u : Tok) (new rest : Str) (h : u ≠ t) :
    replaceGo t.text new 0 (u.text ++ rest) = u.text ++ replaceGo t.text new 0 rest := by
  cases t <;> cases u <;> first
    | exact absurd rfl h
    | simp [Tok.text_eq, replaceGo, hasPrefix]

theorem piecesText_cons (p : Piece) (ps : List Piece) :
    piecesText (p :: ps) = p.text ++ piecesText ps := by
  simp [piecesText]

theorem piecesText_append (ps qs : List Piece) :
    piecesText (ps ++ qs) = piecesText ps ++ piecesText qs := by
  simp [piecesText]

theorem piecesText_lits (v : Str) : piecesText (v.map Piece.lit) = v := by
  induction v with
  | nil => rfl
  | cons c v ih => rw [List.map_cons, piecesText_cons, ih]; rfl

theorem substPieces_cons (t : Tok) (v : Str) (p : Piece) (ps : List Piece) :
    substPieces t v (p :: ps) =
      (if p = .tok t then v.map .lit else [p]) ++ substPieces t v ps := by
  simp [substPieces]

theorem substPieces_append (t : Tok) (v : Str) (ps qs : List Piece) :
    substPieces t v (ps ++ qs) = substPieces t v ps ++ substPieces t v qs := by
  simp [substPieces]

theorem substPieces_lits (t : Tok) (v : Str) (xs : Str) :
    substPieces t v (xs.map Piece.lit) = xs.map Piece.lit := by
  induction xs with
  | nil => rfl
  | cons c xs ih => rw [List.map_cons, substPieces_cons, ih]; simp

/-- One scan for a key over a sequence of pieces replaces the occurrences of that
key, and nothing else. -/
theorem replaceGo_pieces (t : Tok) (v : Str) (ps : List Piece)
    (h : ∀ c, Piece.lit c ∈ ps → c ≠ '&') :
    replaceGo t.text v 0 (piecesText ps) = piecesText (substPieces t v ps) := by
  induction ps with
  | nil => simp [piecesText, substPieces, replaceGo]
  | cons p ps ih =>
    have ih1 := ih (fun c hc => h c (by simp [hc]))
    rw [piecesText_cons, substPieces_cons, piecesText_append]
    cases p with
    | lit c =>
      have hc : c ≠ '&' := h c (by simp)
      simp only [Piece.text, List.singleton_append, reduceCtorEq, if_false]
      rw [replaceGo_other t v c _ hc, ih1]
      rfl
    | tok u =>
      by_cases hu : u = t
      · subst hu
        obtain ⟨tl, htl, _⟩ := u.text_shape
        simp only [Piece.text, if_true, piecesText_lits]
        rw [htl, replaceGo_match, ← htl, ih1]
      · have hne : Piece.tok u ≠ Piece.tok t := fun he => hu (by cases he; rfl)
        simp only [Piece.text, hne, if_false]
        rw [replaceGo_other_tok t u v _ hu, ih1]
        simp [piecesText, Piece.text]

theorem piecesText_substPieces_self (t : Tok) (ps : List Piece) :
    piecesText (substPieces t t.text ps) = piecesText ps := by
  induction ps with
  | nil => rfl
  | cons p ps ih =>
    rw [substPieces_cons, piecesText_append, ih, piecesText_cons]
    by_cases hp : p = .tok t
    · rw [if_pos hp, piecesText_lits, hp]; rfl
    · rw [if_neg hp]; simp [piecesText]

/-- The same for `strings.ReplaceAll`. -/
theorem ReplaceAll_pieces (t : Tok) (v : Str) (ps : List Piece)
    (h : ∀ c, Piece.lit c ∈ ps → c ≠ '&') :
    ReplaceAll (piecesText ps) t.text v = piecesText (substPieces t v ps) := by
  obtain ⟨tl, htl, _⟩ := t.text_shape
  have hne : t.text ≠ [] := by rw [htl]; simp
  unfold ReplaceAll
  by_cases hv : t.text = v
  · rw [if_pos hv, ← hv, piecesText_substPieces_self]
  · rw [if_neg hv, if_neg hne, replaceGo_pieces t v ps h]

theorem applied_cons (vals : Tok → Str) (done : List Tok) (p : Piece) (ps : List Piece) :
    applied vals done (p :: ps) =
      (match p with
        | .lit c => [.lit c]
        | .tok t => if t ∈ done then (vals t).map .lit else [.tok t]) ++
        applied vals done ps := by
  simp [applied]

theorem applied_nil_done (vals : Tok → Str) (ps : List Piece) : applied vals [] ps = ps := by
  induction ps with
  | nil => rfl
  | cons p ps ih => rw [applied_cons, ih]; cases p <;> simp

/-- Replacing one more key in a partly replaced sequence. -/
theorem substPieces_applied (vals : Tok → Str) (done : List Tok) (q : Tok) (ps : List Piece) :
    substPieces q (vals q) (applied vals done ps) = applied vals (q :: done) ps := by
  induction ps with
  | nil => rfl
  | cons p ps ih =>
    rw [applied_cons, applied_cons, substPieces_append, ih]
    congr 1
    cases p with
    | lit c => simp [substPieces]
    | tok t =>
      by_cases hd : t ∈ done
      · simp only [hd, if_true, List.mem_cons, or_true, substPieces_lits]
      · by_cases hq : t = q
        · subst hq
          simp [hd, substPieces]
        · have hne : Piece.tok t ≠ Piece.tok q := fun he => hq (by cases he; rfl)
          simp [hd, hq, substPieces, hne]

/-- The single characters of a partly replaced sequence are plain when those of the
sequence and of the values of its keys are. -/
theorem Plain_applied (vals : Tok → Str) (done : List Tok) (ps : List Piece)
    (hps : Plain ps) (hv : ∀ t, Piece.tok t ∈ ps → ∀ c ∈ vals t, c ≠ '&' ∧ c ≠ '$') :
    Plain (applied vals done ps) := by
  intro c hc
  simp only [applied, List.mem_flatMap] at hc
  obtain ⟨p, hp, hc⟩ := hc
  cases p with
  | lit d =>
    simp only [List.mem_singleton, Piece.lit.injEq] at hc
    subst hc
    exact hps c hp
  | tok t =>
    by_cases hd : t ∈ done
    · simp only [hd, if_true, List.mem_map, Piece.lit.injEq, exists_eq_right] at hc
      exact hv t hp c hc
    · simp [hd] at hc

/-- The text of a plain sequence has no `$`. -/
theorem piecesText_no_dollar (ps : List Piece) (hps : Plain ps) :
    ∀ c ∈ piecesText ps, c ≠ '$' := by
  intro c hc
  simp only [piecesText, List.mem_flatMap] at hc
  obtain ⟨p, hp, hc⟩ := hc
  cases p with
  | lit d =>
    simp only [Piece.text, List.mem_singleton] at hc
    subst hc
    exact (hps c hp).2
  | tok t =>
    obtain ⟨tl, htl, hclean⟩ := t.text_shape
    simp only [Piece.text, htl, List.mem_cons] at hc
    rcases hc with rfl | hc
    · decide
    · exact (hclean c hc).2

/-- One iteration of the inner loop on a partly replaced sequence. -/
theorem expandStep_applied (getenv : Str → Str) (f : Feed) (it : Item) (a : Person) (done : List Tok)
    (q : Tok) (ps : List Piece) (hps : Plain ps)
    (hv : ∀ t, Piece.tok t ∈ ps → ∀ c ∈ t.value f it a, c ≠ '&' ∧ c ≠ '$') :
    expandStep getenv f it a (piecesText (applied (Tok.value f it a) done ps)) q =
      piecesText (applied (Tok.value f it a) (q :: done) ps) := by
  unfold expandStep
  rw [ReplaceAll_pieces q _ _
    (fun c hc => (Plain_applied (Tok.value f it a) done ps hps hv c hc).1),
    substPieces_applied]
  exact ExpandEnv_no_dollar getenv _
    (piecesText_no_dollar _ (Plain_applied (Tok.value f it a) (q :: done) ps hps hv))

/-- The inner loop on a partly replaced sequence. -/
theorem foldl_expandStep_applied (getenv : Str → Str) (f : Feed) (it : Item)
    (a : Person) (ps : List Piece) (hps : Plain ps)
    (hv : ∀ t, Piece.tok t ∈ ps → ∀ c ∈ t.value f it a, c ≠ '&' ∧ c ≠ '$')
    (order : List Tok) :
    ∀ done, order.foldl (expandStep getenv f it a)
        (piecesText (applied (Tok.value f it a) done ps)) =
      piecesText (applied (Tok.value f it a) (order.reverse ++ done) ps) := by
  induction order with
  | nil => intro done; rfl
  | cons q order ih =>
    intro done
    rw [List.foldl_cons, expandStep_applied getenv f it a done q ps hps hv, ih (q :: done)]
    simp

/-- When every key of the sequence is done, the text is the rendering. -/
theorem piecesText_applied_all (vals : Tok → Str) (done : List Tok) (ps : List Piece)
    (h : ∀ t, Piece.tok t ∈ ps → t ∈ done) :
    piecesText (applied vals done ps) = render vals ps := by
  induction ps with
  | nil => rfl
  | cons p ps ih =>
    rw [applied_cons, piecesText_append, ih (fun t ht => h t (by simp [ht]))]
    cases p with
    | lit c => simp [render, piecesText, Piece.text]
    | tok t =>
      have ht : t ∈ done := h t (by simp)
      simp only [ht, if_true, piecesText_lits]
      simp [render]

/-- The command built from a template that is a plain sequence of pieces, when the
values of its keys are plain and the order contains every key of the sequence. -/
theorem expandCommand_pieces (getenv : Str → Str) (f : Feed) (it : Item)
    (a : Person) (ps : List Piece) (hps : Plain ps)
    (hv : ∀ t, Piece.tok t ∈ ps → ∀ c ∈ t.value f it a, c ≠ '&' ∧ c ≠ '$')
    (order : List Tok) (hall : ∀ t, Piece.tok t ∈ ps → t ∈ order) :
    expandCommand getenv order (piecesText ps) f it a = render (Tok.value f it a) ps := by
  unfold expandCommand
  have h := foldl_expandStep_applied getenv f it a ps hps hv order []
  rw [applied_nil_done] at h
  rw [h]
  exact piecesText_applied_all _ _ ps (fun t ht => by simpa using hall t ht)

/-! ## Claims on the expansion -/

theorem mem_allToks (t : Tok) : t ∈ allToks := by
  cases t <;> decide

/-- C4, the code at the failing inputs: with `REF=$FOO` and `FOO=bar` the template
`$REF` becomes `bar`, where the two passes give `$FOO`; with `KEY=&title` and the
keys iterated in reverse order the template `$KEY` becomes the document title `T`,
where the two passes give `&title`; the example of the specification,
`echo $FOO &title`, gives `echo bar T` both ways. -/
theorem expand_interleaves_env :
    buildCommand sampleEnv allToks "$REF".toList docT itemA = .ok "bar".toList ∧
    twoPassExpand sampleEnv allToks "$REF".toList docT itemA authorA = "$FOO".toList ∧
    buildCommand sampleEnv allToks.reverse "$KEY".toList docT itemA = .ok "T".toList ∧
    twoPassExpand sampleEnv allToks.reverse "$KEY".toList docT itemA authorA
      = "&title".toList ∧
    buildCommand sampleEnv allToks "echo $FOO &title".toList docT itemA
      = .ok "echo bar T".toList ∧
    twoPassExpand sampleEnv allToks "echo $FOO &title".toList docT itemA authorA
      = "echo bar T".toList := by
  refine ⟨?_, ?_, ?_, ?_, ?_, ?_⟩ <;> decide

/-- C5, as stated, fails: in the template `&t&langitle`, with an empty language and
the title `T`, no field value contains a key or a `$` and the template has no `$`, yet
the order of the map literal gives `&title` and the reverse order gives `T`. -/
theorem expand_order_counterexample :
    itemA.Author = some authorA ∧
    (∀ t u : Tok, ¬ List.IsInfix u.text (t.value docT itemA authorA)) ∧
    (∀ t : Tok, '$' ∉ t.value docT itemA authorA) ∧
    '$' ∉ "&t&langitle".toList ∧
    List.Perm allToks allToks ∧ List.Perm allToks.reverse allToks ∧
    buildCommand sampleEnv allToks "&t&langitle".toList docT itemA = .ok "&title".toList ∧
    buildCommand sampleEnv allToks.reverse "&t&langitle".toList docT itemA
      = .ok "T".toList := by
  refine ⟨rfl, ?_, ?_, by decide, List.Perm.refl _, List.reverse_perm _, by decide, by decide⟩
  · intro t u
    cases t <;> cases u <;> decide
  · intro t
    cases t <;> decide

/-- A value with an `&` can complete a key with the text that follows it: in the
template `&langtle`, with the language `&ti` and the title `T`, no field value
contains a key, and the order of the map literal gives `&title` where the reverse
order gives `T`. -/
theorem expand_order_value_with_amp :
    (∀ t u : Tok, ¬ List.IsInfix u.text (t.value docAmp itemA authorA)) ∧
    buildCommand sampleEnv allToks (piecesText [.tok .lang, .lit 't', .lit 'l', .lit 'e'])
      docAmp itemA = .ok "&title".toList ∧
    buildCommand sampleEnv allToks.reverse
      (piecesText [.tok .lang, .lit 't', .lit 'l', .lit 'e']) docAmp itemA
      = .ok "T".toList := by
  refine ⟨?_, by decide, by decide⟩
  intro t u
  cases t <;> cases u <;> decide

/-- The command built for an item with an author. -/
theorem buildCommand_author (getenv : Str → Str) (order : List Tok) (exec : Str)
    (f : Feed) (it : Item) (a : Person) (ha : it.Author = some a) :
    buildCommand getenv order exec f it = .ok (expandCommand getenv order exec f it a) := by
  simp [buildCommand, ha]

/-- C5, amended: for every template that is a sequence of keys and of characters other
than `&` and `$`, and every document whose newest item has an author and in which the
values of the keys of the template contain neither `&` nor `$`, the command is the
same for every order of the nine keys: the template with each key replaced by its
value. -/
theorem expand_order_independent (getenv : Str → Str) (f : Feed) (it : Item) (a : Person)
    (ps : List Piece) (ha : it.Author = some a) (hps : Plain ps)
    (hv : ∀ t, Piece.tok t ∈ ps → ∀ c ∈ t.value f it a, c ≠ '&' ∧ c ≠ '$')
    (order1 order2 : List Tok) (h1 : List.Perm order1 allToks)
    (h2 : List.Perm order2 allToks) :
    buildCommand getenv order1 (piecesText ps) f it
      = buildCommand getenv order2 (piecesText ps) f it ∧
    buildCommand getenv order1 (piecesText ps) f it = .ok (render (Tok.value f it a) ps) := by
  have e1 := expandCommand_pieces getenv f it a ps hps hv order1
    (fun t _ => h1.symm.subset (mem_allToks t))
  have e2 := expandCommand_pieces getenv f it a ps hps hv order2
    (fun t _ => h2.symm.subset (mem_allToks t))
  rw [buildCommand_author getenv order1 _ f it a ha,
    buildCommand_author getenv order2 _ f it a ha, e1, e2]
  exact ⟨rfl, rfl⟩

/-- Witness of `expand_order_independent`: the template `&lang: &title` and `docAmp`,
whose title is `T` and whose language is `&ti`, in the order of the map literal and in
the reverse order. -/
theorem expand_order_independent_witness :
    buildCommand sampleEnv allToks
        (piecesText [.tok .title, .lit ':', .lit ' ', .tok .item_title]) docAmp itemA
      = buildCommand sampleEnv allToks.reverse
        (piecesText [.tok .title, .lit ':', .lit ' ', .tok .item_title]) docAmp itemA ∧
    buildCommand sampleEnv allToks
        (piecesText [.tok .title, .lit ':', .lit ' ', .tok .item_title]) docAmp itemA
      = .ok (render (Tok.value docAmp itemA authorA)
          [.tok .title, .lit ':', .lit ' ', .tok .item_title]) :=
  expand_order_independent sampleEnv docAmp itemA authorA
    [.tok .title, .lit ':', .lit ' ', .tok .item_title] rfl
    (by intro c hc; simp at hc; rcases hc with rfl | rfl <;> decide)
    (by
      intro t ht
      simp at ht
      rcases ht with rfl | rfl <;> decide)
    allToks allToks.reverse (List.Perm.refl _) (List.reverse_perm _)

/-- With an author: for every document and newest item with an author whose title
and link contain neither `&` nor `$`, every environment and every order of the nine
keys, the template `&item_title: &item_link` expands to the title, `: ` and the
link. -/
theorem expand_item_title_link (getenv : Str → Str) (f : Feed) (it : Item) (a : Person)
    (order : List Tok) (ha : it.Author = some a)
    (hX : ∀ c ∈ it.Title, c ≠ '&' ∧ c ≠ '$')
    (hY : ∀ c ∈ it.Link, c ≠ '&' ∧ c ≠ '$') (horder : List.Perm order allToks) :
    buildCommand getenv order "&item_title: &item_link".toList f it
      = .ok (it.Title ++ ": ".toList ++ it.Link) := by
  have htpl : "&item_title: &item_link".toList
      = piecesText [.tok .item_title, .lit ':', .lit ' ', .tok .item_link] := by decide
  rw [buildCommand_author getenv order _ f it a ha, htpl,
    expandCommand_pieces getenv f it a _ _ _ order
      (fun t _ => horder.symm.subset (mem_allToks t))]
  · simp [render, Tok.value]
  · intro c hc
    simp at hc
    rcases hc with rfl | rfl <;> decide
  · intro t ht
    simp at ht
    rcases ht with rfl | rfl
    · exact hX
    · exact hY

/-- An instance of `expand_item_title_link`: title `X`, link `http://y`, an author. -/
theorem expand_item_title_link_instance :
    buildCommand sampleEnv allToks.reverse "&item_title: &item_link".toList docT
        ⟨"X".toList, "http://y".toList, [], [], some authorA⟩
      = .ok "X: http://y".toList :=
  expand_item_title_link sampleEnv docT ⟨"X".toList, "http://y".toList, [], [], some authorA⟩
    authorA allToks.reverse rfl (by decide) (by decide) (List.reverse_perm _)

/-- C6, the code at the failing input: for the document whose newest item has the
title `X`, the link `http://y` and no author, the map literal panics with a nil
pointer dereference, whatever the environment and the order, so no command is built
from `&item_title: &item_link`; the run of `synchronize` on that feed panics, runs no
command and leaves the file as it was. -/
theorem expand_item_title_link_no_author (getenv : Str → Str) (order : List Tok) :
    docY.Items = [itemY] ∧ itemY.Title = "X".toList ∧ itemY.Link = "http://y".toList ∧
    itemY.Author = none ∧
    buildCommand getenv order "&item_title: &item_link".toList docY itemY
      = .error .nilPointer ∧
    (synchronize (sampleJson [cfgY]) sampleWorld (some (jsonMarshal true cfgY))).outcome
      = .panicked .nilPointer ∧
    (synchronize (sampleJson [cfgY]) sampleWorld (some (jsonMarshal true cfgY))).ran = [] ∧
    (synchronize (sampleJson [cfgY]) sampleWorld (some (jsonMarshal true cfgY))).file
      = some (jsonMarshal true cfgY) := by
  have hload : readConfig (sampleJson [cfgY]) (some (jsonMarshal true cfgY)) = .ok cfgY := by
    decide
  have hres : (syncFeeds sampleWorld cfgY.Exec 0 cfgY.Feeds) = ⟨[], .error .nilPointer⟩ := by
    rfl
  rw [synchronize_loop_error _ _ _ _ .nilPointer hload (by rw [hres]), hres]
  exact ⟨rfl, rfl, rfl, rfl, rfl, rfl, rfl, rfl⟩

/-! ## Claims on the configuration store -/

/-- C7, the code at the failing input: the configuration `cfgBig` (a template of 1000
characters, no feed, the slice nil) is written as 1024 bytes, and reading the written file gives what
reading its first 1000 bytes gives, a document cut inside the string of the template,
whatever the decoder. -/
theorem readConfig_after_writeConfig_big (U : Bytes → Except String config) (old : Bytes) :
    (jsonMarshal true cfgBig).length = 1024 ∧
    (writeConfig ⟨jsonMarshal true, U⟩ (some old) cfgBig).2 = some (jsonMarshal true cfgBig) ∧
    readBuffer (jsonMarshal true cfgBig) = ascii "\x7b\"Exec\":\"" ++ List.replicate 991 97 ∧
    readConfig ⟨jsonMarshal true, U⟩ (writeConfig ⟨jsonMarshal true, U⟩ (some old) cfgBig).2 =
      readConfig ⟨jsonMarshal true, U⟩
        (some (ascii "\x7b\"Exec\":\"" ++ List.replicate 991 97)) := by
  have hbuf : readBuffer (jsonMarshal true cfgBig)
      = ascii "\x7b\"Exec\":\"" ++ List.replicate 991 97 := by decide
  have hbuf2 : readBuffer (ascii "\x7b\"Exec\":\"" ++ List.replicate 991 97)
      = ascii "\x7b\"Exec\":\"" ++ List.replicate 991 97 := by decide
  have hne1 : jsonMarshal true cfgBig ≠ [] := by decide
  have hne2 : ascii "\x7b\"Exec\":\"" ++ List.replicate 991 97 ≠ [] := by decide
  refine ⟨by decide, rfl, hbuf, ?_⟩
  simp only [writeConfig, readConfig, hbuf, hbuf2, hne1, hne2, if_false]

/-- C8, the code at the failing inputs: a file that starts with a NUL byte followed by
`{}`, and a file of `{}`, 998 spaces and then `garbage`, are read as the file `{}`
respectively `{}` and 998 spaces is, whatever the decoder. -/
theorem readConfig_ignores_bytes (J : Json) :
    readConfig J (some (0 :: ascii "\x7b\x7d")) = readConfig J (some (ascii "\x7b\x7d")) ∧
    readConfig J (some (ascii "\x7b\x7d" ++ List.replicate 998 32 ++ ascii "garbage")) =
      readConfig J (some (ascii "\x7b\x7d" ++ List.replicate 998 32)) := by
  have h1 : readBuffer (0 :: ascii "\x7b\x7d") = readBuffer (ascii "\x7b\x7d") := by decide
  have h2 : readBuffer (ascii "\x7b\x7d" ++ List.replicate 998 32 ++ ascii "garbage")
      = readBuffer (ascii "\x7b\x7d" ++ List.replicate 998 32) := by decide
  have n1 : (0 :: ascii "\x7b\x7d") ≠ [] := by decide
  have n2 : ascii "\x7b\x7d" ≠ [] := by decide
  have n3 : ascii "\x7b\x7d" ++ List.replicate 998 32 ++ ascii "garbage" ≠ [] := by decide
  have n4 : ascii "\x7b\x7d" ++ List.replicate 998 32 ≠ [] := by decide
  constructor
  · simp only [readConfig, h1, n1, n2, if_false]
  · simp only [readConfig, h2, n3, n4, if_false]

theorem foldl_flag (feed : Str) (feeds : List feedItem) :
    ∀ b, feeds.foldl (fun flag v => if v.Feed = feed then true else flag) b =
      (b || decide (feed ∈ feeds.map feedItem.Feed)) := by
  induction feeds with
  | nil => intro b; simp
  | cons v feeds ih =>
    intro b
    rw [List.foldl_cons, ih]
    by_cases hv : v.Feed = feed
    · simp [hv]
    · have hv1 : ¬ feed = v.Feed := fun h => hv h.symm
      simp [hv, hv1]

/-- C10: when the stored configuration is loaded and its feed URLs are pairwise
distinct, `addFeed` with a URL already present returns the error `duplicate feed` and
leaves the file as it is, and with a URL not present writes the configuration with the
same template, the same feeds and one more feed at the end, with that URL and an empty
`Last`; the feed URLs of the written configuration are pairwise distinct. -/
theorem addFeed_keeps_urls_distinct (J : Json) (file : Option Bytes) (s : config)
    (feed : Str) (hload : readConfig J file = .ok s)
    (hnodup : (s.Feeds.map feedItem.Feed).Nodup) :
    (feed ∈ s.Feeds.map feedItem.Feed →
      addFeed J file feed = (.error (.errorsNew "duplicate feed"), file)) ∧
    (feed ∉ s.Feeds.map feedItem.Feed →
      addFeed J file feed
        = (.ok (), some (J.Marshal (config.mk s.Exec (s.Feeds ++ [feedItem.mk feed []])))) ∧
      ((s.Feeds ++ [feedItem.mk feed []]).map feedItem.Feed).Nodup) := by
  obtain ⟨data, rfl⟩ := readConfig_ok_some J file s hload
  constructor
  · intro hmem
    simp only [addFeed, hload]
    rw [foldl_flag]
    simp [hmem]
  · intro hnot
    constructor
    · simp only [addFeed, hload]
      rw [foldl_flag]
      simp [hnot, writeConfig]
    · rw [List.map_append, List.nodup_append]
      refine ⟨hnodup, by simp, ?_⟩
      intro a ha hb
      simp only [List.map_cons, List.map_nil, List.mem_singleton] at hb
      subst hb
      exact hnot ha

/-- Witness of `addFeed_keeps_urls_distinct`: the configuration `cfgA` and the URL
`http://b`. -/
theorem addFeed_keeps_urls_distinct_witness :
    ("http://b".toList ∈ cfgA.Feeds.map feedItem.Feed →
      addFeed (sampleJson [cfgA]) (some (jsonMarshal true cfgA)) "http://b".toList
        = (.error (.errorsNew "duplicate feed"), some (jsonMarshal true cfgA))) ∧
    ("http://b".toList ∉ cfgA.Feeds.map feedItem.Feed →
      addFeed (sampleJson [cfgA]) (some (jsonMarshal true cfgA)) "http://b".toList
        = (.ok (), some ((sampleJson [cfgA]).Marshal
            (config.mk cfgA.Exec (cfgA.Feeds ++ [feedItem.mk "http://b".toList []])))) ∧
      ((cfgA.Feeds ++ [feedItem.mk "http://b".toList []]).map feedItem.Feed).Nodup) :=
  addFeed_keeps_urls_distinct (sampleJson [cfgA]) (some (jsonMarshal true cfgA)) cfgA
    "http://b".toList (by decide) (by decide)

end Rssd
